import Mathlib

/-!
Verification of the merlinator playlist renamer.

Shallow embedding of the two source files that the claims are about:

* `src/merlin_renamer.py` — binary playlist scanner (`read_merlin_playlist`,
  `find_uuids_in_entry`, `extract_title_from_entry`), the title resolution
  done in `main`, and the accent-preserving `sanitize_filename`.
* `src/rename_from_id3.py` — the legacy `sanitize_filename` variant
  (alnum-keeping strip).

Bytes are modelled as `Fin 256`; Python strings as lists of Unicode code
points (`List Nat`).  While-loops with a strictly decreasing measure are
embedded with an explicit fuel argument that is always called with enough
fuel (the list length), so that every definition reduces by `decide`/`rfl`.
-/

abbrev Byte := Fin 256

/-- Codes of a list of naturals as bytes (values are taken mod 256). -/
def bytesOf (l : List Nat) : List Byte :=
  l.map (fun n => (⟨n % 256, Nat.mod_lt n (by omega)⟩ : Byte))

/-! ## Pattern matching, modelling `re` on fixed-shape patterns

The regexes in the source (`UUID_PATTERN`, the `[0-9a-fA-F]{8}-[0-9a-fA-F]{4}`
search inside `is_uuid_like`) are fixed-length patterns: a match at a
position is a pointwise test of one predicate per character.  `matchShape`
tests a pattern at the head of a list; `searchShape` models `re.search`
(a match at any position). -/

def matchShape {α : Type} : List (α → Bool) → List α → Bool
  | [], _ => true
  | _ :: _, [] => false
  | p :: ps, x :: xs => p x && matchShape ps xs

def searchShape {α : Type} (ps : List (α → Bool)) : List α → Bool
  | [] => matchShape ps []
  | x :: xs => matchShape ps (x :: xs) || searchShape ps xs

/-- Matches `[0-9a-fA-F]` on a code point / byte value. -/
def isHexDigitN (c : Nat) : Bool :=
  decide ((48 ≤ c ∧ c ≤ 57) ∨ (65 ≤ c ∧ c ≤ 70) ∨ (97 ≤ c ∧ c ≤ 102))

/-- Byte values of `UUID_MARKER = b'La\x94i$'` (bytes 4C 61 94 69 24). -/
def UUID_MARKER : List Nat := [0x4C, 0x61, 0x94, 0x69, 0x24]

/-- The byte-level shape of `UUID_PATTERN`:
`[0-9a-fA-F]{8}-[0-9a-fA-F]{4}-[0-9a-fA-F]{4}-[0-9a-fA-F]{4}-[0-9a-fA-F]{12}`. -/
def uuidShapeB : List (Byte → Bool) :=
  let hex : Byte → Bool := fun b => isHexDigitN b.val
  let dash : Byte → Bool := fun b => decide (b.val = 45)
  List.replicate 8 hex ++ [dash] ++ List.replicate 4 hex ++ [dash] ++
    List.replicate 4 hex ++ [dash] ++ List.replicate 4 hex ++ [dash] ++
    List.replicate 12 hex

/-- Models `re.finditer(UUID_PATTERN, entry)`: leftmost, non-overlapping matches.
`pos` is the absolute offset of `s` inside the entry.  The pattern has fixed
length 36, so after a match scanning resumes 36 bytes further.  Fuel is the
length of `s`; each step consumes at least one byte. -/
def findGo : Nat → Nat → List Byte → List Nat
  | 0, _, _ => []
  | f + 1, pos, s =>
    if matchShape uuidShapeB s then pos :: findGo f (pos + 36) (s.drop 36)
    else
      match s with
      | [] => []
      | _ :: rest => findGo f (pos + 1) rest

def findMatches (entry : List Byte) : List Nat := findGo entry.length 0 entry

/-- One match of `find_uuids_in_entry`: the decoded UUID text, its byte
offset, and the marker flag. -/
structure UuidMatch where
  uuid : List Nat
  offset : Nat
  has_marker : Bool
deriving DecidableEq, Repr

/-- The marker scan of `find_uuids_in_entry`: Python iterates
`marker_offset in range(max(0, offset - 5), offset)` and compares the
5-byte slice with `UUID_MARKER` (a slice shorter than 5 bytes never
compares equal, exactly as in Python).  `List.range' (k - 5) (k - (k - 5))`
is `[max(0, k-5), …, k-1]` by truncated subtraction. -/
def hasMarkerNear (entry : List Byte) (k : Nat) : Bool :=
  (List.range' (k - 5) (k - (k - 5))).any
    (fun j => decide (((entry.drop j).take 5).map Fin.val = UUID_MARKER))

/-- `find_uuids_in_entry` from `merlin_renamer.py`. -/
def find_uuids_in_entry (entry : List Byte) : List UuidMatch :=
  (findMatches entry).map (fun k =>
    { uuid := ((entry.drop k).take 36).map Fin.val
      offset := k
      has_marker := hasMarkerNear entry k })

/-! ## Python character classes and `str.strip` -/

/-- Python `str.strip()` whitespace (the Unicode whitespace table used by
CPython's `Py_UNICODE_ISSPACE`). -/
def pyIsSpace (c : Nat) : Bool :=
  [9, 10, 11, 12, 13, 28, 29, 30, 31, 32, 0x85, 0xA0, 0x1680,
   0x2000, 0x2001, 0x2002, 0x2003, 0x2004, 0x2005, 0x2006, 0x2007,
   0x2008, 0x2009, 0x200A, 0x2028, 0x2029, 0x202F, 0x205F, 0x3000].contains c

/-- Python `str.isalpha` on a code point.  Exact on code points below
0x250 (ASCII, Latin-1, and the Latin Extended-A/B blocks, which consist
entirely of letters); code points at or above 0x250 are treated as
non-alphabetic — an approximation of the full Unicode letter table, which
is out of scope. -/
def pyIsAlpha (c : Nat) : Bool :=
  decide ((65 ≤ c ∧ c ≤ 90) ∨ (97 ≤ c ∧ c ≤ 122) ∨ c = 0xAA ∨ c = 0xB5 ∨
    c = 0xBA ∨ (0xC0 ≤ c ∧ c ≤ 0xD6) ∨ (0xD8 ≤ c ∧ c ≤ 0xF6) ∨
    (0xF8 ≤ c ∧ c ≤ 0x24F))

/-- Python `str.isalnum` on a code point: alphabetic, or a decimal digit,
or one of the Latin-1 numeric characters (² ³ ¹ ¼ ½ ¾).  Exactness
boundary as for `pyIsAlpha`. -/
def pyIsAlnum (c : Nat) : Bool :=
  pyIsAlpha c || decide (48 ≤ c ∧ c ≤ 57) ||
    [0xB2, 0xB3, 0xB9, 0xBC, 0xBD, 0xBE].contains c

/-- Left strip: `str.lstrip`-like, dropping a prefix of characters
satisfying `p`. -/
def lstripP (p : Nat → Bool) (l : List Nat) : List Nat := l.dropWhile p

/-- Right strip: drop the maximal suffix of characters satisfying `p`. -/
def rstripP (p : Nat → Bool) : List Nat → List Nat
  | [] => []
  | x :: rest =>
    match rstripP p rest with
    | [] => if p x then [] else [x]
    | y :: ys => x :: y :: ys

/-- Both-ends strip, as Python `str.strip(chars)`. -/
def stripP (p : Nat → Bool) (l : List Nat) : List Nat := rstripP p (lstripP p l)

/-- `str.strip()` (whitespace strip). -/
def pyStrip (l : List Nat) : List Nat := stripP pyIsSpace l

/-! ## `is_uuid_like` -/

/-- The pattern `[0-9a-fA-F]{8}-[0-9a-fA-F]{4}` searched by `is_uuid_like`. -/
def hexDashShape : List (Nat → Bool) :=
  List.replicate 8 isHexDigitN ++ [fun c => decide (c = 45)] ++
    List.replicate 4 isHexDigitN

/-- Characters counted by `is_uuid_like` (`'0123456789abcdefABCDEF-'`). -/
def isHexOrDash (c : Nat) : Bool := isHexDigitN c || decide (c = 45)

/-- Predicate `is_uuid_like` from `merlin_renamer.py`.  The float comparison
`hex_chars / len(text) > 0.7` is modelled as the rational comparison
`10 * hex_chars > 7 * len(text)`: for the string lengths that can occur
the two comparisons agree (the closest a ratio of naturals with
denominator `len(text)` can come to 0.7 exceeds the double rounding
error by many orders of magnitude). -/
def is_uuid_like (text : List Nat) : Bool :=
  if text = [] then false
  else if searchShape hexDashShape text then true
  else if 10 < text.length && 7 * text.length < 10 * (text.countP isHexOrDash)
    then true
  else false

/-- Counts `sum(1 for c in text if c.isalpha())`. -/
def alphaCount (text : List Nat) : Nat := text.countP pyIsAlpha

/-! ## Text decoding (`bytes.decode('utf-8')`, `bytes.decode('latin-1')`) -/

/-- Continuation byte `0x80–0xBF`. -/
def isCont (b : Byte) : Bool := decide (0x80 ≤ b.val ∧ b.val ≤ 0xBF)

/-- First continuation byte constraint after a 3-byte lead (excludes
overlong forms for `0xE0` and surrogates for `0xED`). -/
def cont3Ok (lead : Byte) (c : Byte) : Bool :=
  if lead.val = 0xE0 then decide (0xA0 ≤ c.val ∧ c.val ≤ 0xBF)
  else if lead.val = 0xED then decide (0x80 ≤ c.val ∧ c.val ≤ 0x9F)
  else isCont c

/-- First continuation byte constraint after a 4-byte lead (excludes
overlong forms for `0xF0` and code points above U+10FFFF for `0xF4`). -/
def cont4Ok (lead : Byte) (c : Byte) : Bool :=
  if lead.val = 0xF0 then decide (0x90 ≤ c.val ∧ c.val ≤ 0xBF)
  else if lead.val = 0xF4 then decide (0x80 ≤ c.val ∧ c.val ≤ 0x8F)
  else isCont c

/-- Strict UTF-8 decoding as performed by Python's `bytes.decode('utf-8')`:
rejects invalid leads, truncated sequences, overlong encodings, surrogates
and code points above U+10FFFF. -/
def utf8Decode : List Byte → Option (List Nat)
  | [] => some []
  | b :: rest =>
    if b.val < 0x80 then (utf8Decode rest).map (fun cs => b.val :: cs)
    else if 0xC2 ≤ b.val ∧ b.val ≤ 0xDF then
      match rest with
      | c1 :: rest1 =>
        if isCont c1 then
          (utf8Decode rest1).map
            (fun cs => ((b.val - 0xC0) * 64 + (c1.val - 0x80)) :: cs)
        else none
      | [] => none
    else if 0xE0 ≤ b.val ∧ b.val ≤ 0xEF then
      match rest with
      | c1 :: c2 :: rest2 =>
        if cont3Ok b c1 && isCont c2 then
          (utf8Decode rest2).map
            (fun cs => ((b.val - 0xE0) * 4096 + (c1.val - 0x80) * 64 +
              (c2.val - 0x80)) :: cs)
        else none
      | _ => none
    else if 0xF0 ≤ b.val ∧ b.val ≤ 0xF4 then
      match rest with
      | c1 :: c2 :: c3 :: rest3 =>
        if cont4Ok b c1 && isCont c2 && isCont c3 then
          (utf8Decode rest3).map
            (fun cs => ((b.val - 0xF0) * 262144 + (c1.val - 0x80) * 4096 +
              (c2.val - 0x80) * 64 + (c3.val - 0x80)) :: cs)
        else none
      | _ => none
    else none

/-- Latin-1 decoding `bytes.decode('latin-1')`: each byte maps to the code point of the
same value.  Total on bytes. -/
def latin1Decode (bs : List Byte) : List Nat := bs.map Fin.val

/-- The latin-1 decode wrapped in the `Option` shape of a fallible
decode, mirroring the source's `try`/`except` around it.  It always
succeeds. -/
def latin1DecodeOpt (bs : List Byte) : Option (List Nat) :=
  some (latin1Decode bs)

/-! ## `extract_title_from_entry` -/

/-- The filter applied by `extract_title_from_entry` to a decoded run
(identical in the utf-8 branch and the latin-1 fallback branch):
`text = decoded.strip()`, kept when `len(text) >= 8`,
`not is_uuid_like(text)` and at least 3 alphabetic characters. -/
def filterDecoded (off : Nat) (cs : List Nat) : Option (Nat × List Nat) :=
  let text := pyStrip cs
  if 8 ≤ text.length then
    if is_uuid_like text = false then
      if 3 ≤ alphaCount text then some (off, text) else none
    else none
  else none

/-- One printable run through the decode/filter logic of
`extract_title_from_entry`: try utf-8, on failure fall back to latin-1,
and on failure of both (`except: pass`) drop the run silently. -/
def candidateOfRun (off : Nat) (bs : List Byte) : Option (Nat × List Nat) :=
  match utf8Decode bs with
  | some cs => filterDecoded off cs
  | none =>
    match latin1DecodeOpt bs with
    | some cs => filterDecoded off cs
    | none => none

/-- The printable-run scan of `extract_title_from_entry`: maximal spans of
bytes with value `>= 32`, with their start offsets, in left-to-right
order.  Fuel is the length of `s`; each step consumes at least one byte. -/
def printRunsGo : Nat → Nat → List Byte → List (Nat × List Byte)
  | 0, _, _ => []
  | _ + 1, _, [] => []
  | f + 1, pos, b :: rest =>
    if 32 ≤ b.val then
      let run := (b :: rest).takeWhile (fun x => decide (32 ≤ x.val))
      (pos, run) ::
        printRunsGo f (pos + run.length)
          ((b :: rest).dropWhile (fun x => decide (32 ≤ x.val)))
    else printRunsGo f (pos + 1) rest

def printableRuns (entry : List Byte) : List (Nat × List Byte) :=
  printRunsGo entry.length 0 entry

/-- List `text_sequences`: surviving candidates in ascending offset order. -/
def textCandidates (entry : List Byte) : List (Nat × List Nat) :=
  (printableRuns entry).filterMap (fun r => candidateOfRun r.1 r.2)

/-- Stable insertion for descending sort by text length: `x` is placed
before the first element whose text is not longer, so equal-length
elements keep their original order — the observable behaviour of Python's
stable `list.sort(key=..., reverse=True)`. -/
def insertByLenDesc (x : Nat × List Nat) :
    List (Nat × List Nat) → List (Nat × List Nat)
  | [] => [x]
  | y :: ys =>
    if y.2.length ≤ x.2.length then x :: y :: ys else y :: insertByLenDesc x ys

/-- Models `text_sequences.sort(key=lambda x: len(x['text']), reverse=True)`. -/
def sortByLenDesc (l : List (Nat × List Nat)) : List (Nat × List Nat) :=
  l.foldr insertByLenDesc []

/-- Function `extract_title_from_entry` from `merlin_renamer.py`: the text of the
first element after the stable descending-length sort, or `""` when no
candidate survives. -/
def extract_title_from_entry (entry : List Byte) : List Nat :=
  match sortByLenDesc (textCandidates entry) with
  | [] => []
  | c :: _ => c.2

/-! ## `sanitize_filename` (both variants) -/

/-- The forbidden set of `merlin_renamer.sanitize_filename`:
`[\\/:*?"<>|\x00-\x1f]`. -/
def invalidChar (c : Nat) : Bool :=
  [92, 47, 58, 42, 63, 34, 60, 62, 124].contains c || decide (c ≤ 31)

/-- Models `re.sub(invalid_chars, '_', title)`. -/
def replaceInvalid (t : List Nat) : List Nat :=
  t.map (fun c => if invalidChar c then 95 else c)

/-- The character filter of `rename_from_id3.sanitize_filename`:
`c if c.isalnum() or c in " _-." else "_"`. -/
def legacyReplace (t : List Nat) : List Nat :=
  t.map (fun c => if pyIsAlnum c || [32, 95, 45, 46].contains c then c else 95)

/-- Tests `"aa" in s` for a single character `a` (`"  " in safe`, `"__" in safe`). -/
def hasDbl (a : Nat) : List Nat → Bool
  | x :: y :: rest => (decide (x = a) && decide (y = a)) || hasDbl a (y :: rest)
  | _ => false

/-- One round of `safe.replace(aa, a)`: Python `str.replace` rewrites
non-overlapping occurrences left to right, resuming after each
replacement. -/
def replaceAll2to1 (a : Nat) : List Nat → List Nat
  | x :: y :: rest =>
    if x = a ∧ y = a then a :: replaceAll2to1 a rest
    else x :: replaceAll2to1 a (y :: rest)
  | l => l

/-- Models `while aa in safe: safe = safe.replace(aa, a)`.  Each iteration
strictly shortens the string, so fuel `l.length` always suffices. -/
def collapseGo (a : Nat) : Nat → List Nat → List Nat
  | 0, l => l
  | f + 1, l => if hasDbl a l then collapseGo a f (replaceAll2to1 a l) else l

def collapseAll (a : Nat) (l : List Nat) : List Nat := collapseGo a l.length l

/-- UTF-8 encoded byte length of one code point (`len(c.encode('utf-8'))`). -/
def utf8CharLen (c : Nat) : Nat :=
  if c < 0x80 then 1 else if c < 0x800 then 2 else if c < 0x10000 then 3 else 4

/-- Computes `len(safe.encode('utf-8'))`. -/
def utf8Len (l : List Nat) : Nat := (l.map utf8CharLen).sum

/-- Models `while len(safe.encode('utf-8')) > max_length and safe: safe = safe[:-1]`.
Fuel `l.length` always suffices. -/
def truncGo (maxB : Nat) : Nat → List Nat → List Nat
  | 0, l => l
  | f + 1, l =>
    if maxB < utf8Len l ∧ l ≠ [] then truncGo maxB f l.dropLast else l

def unnamedStr : List Nat := [117, 110, 110, 97, 109, 101, 100]

/-- The strip set `"._-"`. -/
def isDotUH (c : Nat) : Bool := [46, 95, 45].contains c

/-- Function `sanitize_filename` from `merlin_renamer.py` (accent-preserving
regex strip).  `maxLength` is the `max_length` parameter (default 60 at
every call site). -/
def sanitize_filename (maxLength : Nat) (title : List Nat) : List Nat :=
  if title = [] then unnamedStr
  else
    let s1 := replaceInvalid title
    let s2 := collapseAll 32 s1
    let s3 := collapseAll 95 s2
    let s4 := stripP isDotUH (stripP pyIsSpace s3)
    let s5 := truncGo maxLength s4.length s4
    if s5 = [] then unnamedStr else s5

/-- Function `sanitize_filename` from `rename_from_id3.py` (legacy alnum-keeping
variant); identical except for the first character-filter step. -/
def sanitize_filename_legacy (maxLength : Nat) (title : List Nat) : List Nat :=
  if title = [] then unnamedStr
  else
    let s1 := legacyReplace title
    let s2 := collapseAll 32 s1
    let s3 := collapseAll 95 s2
    let s4 := stripP isDotUH (stripP pyIsSpace s3)
    let s5 := truncGo maxLength s4.length s4
    if s5 = [] then unnamedStr else s5

/-- A character that no strip step removes: not whitespace and not in
`"._-"`. -/
def cleanChar (c : Nat) : Bool := !pyIsSpace c && !isDotUH c

/-- Both ends of the string (if any) consist of clean characters. -/
def cleanEnds (l : List Nat) : Bool :=
  l.head?.all cleanChar && l.getLast?.all cleanChar

/-! ## `read_merlin_playlist` -/

/-- One parsed entry (`items.append({...})` in `read_merlin_playlist`). -/
structure PlaylistItem where
  index : Nat
  uuid : List Nat
  pl_title : List Nat
  all_uuids : List (List Nat)
deriving DecidableEq, Repr

/-- Selects `uuid_with_marker[0]['uuid'] if uuid_with_marker else uuids[0]['uuid']`,
with `u0` the first element of `uuids`. -/
def file_uuid_of (u0 : UuidMatch) (uuids : List UuidMatch) : List Nat :=
  match uuids.filter (fun u => u.has_marker) with
  | u :: _ => u.uuid
  | [] => u0.uuid

/-- Record number `i` of the container, 256 bytes (`f.seek(i*ENTRY_SIZE)`,
`f.read(ENTRY_SIZE)`). -/
def recordAt (c : List Byte) (i : Nat) : List Byte :=
  (c.drop (i * 256)).take 256

/-- All records of the container. -/
def records (c : List Byte) : List (List Byte) :=
  (List.range (c.length / 256)).map (recordAt c)

/-- The loop body of `read_merlin_playlist` for record `i`, as an
optional item. -/
def itemAt (c : List Byte) (i : Nat) : Option PlaylistItem :=
  match find_uuids_in_entry (recordAt c i) with
  | [] => none
  | u0 :: us =>
    some { index := i
           uuid := file_uuid_of u0 (u0 :: us)
           pl_title := extract_title_from_entry (recordAt c i)
           all_uuids := (u0 :: us).map (fun u => u.uuid) }

/-- The `for i in range(num_entries)` loop of `read_merlin_playlist`,
including the `if len(entry) < ENTRY_SIZE: break` guard. -/
def readLoop (c : List Byte) : Nat → Nat → List PlaylistItem
  | _, 0 => []
  | i, n + 1 =>
    if (recordAt c i).length < 256 then []
    else
      match find_uuids_in_entry (recordAt c i) with
      | [] => readLoop c (i + 1) n
      | u0 :: us =>
        { index := i
          uuid := file_uuid_of u0 (u0 :: us)
          pl_title := extract_title_from_entry (recordAt c i)
          all_uuids := (u0 :: us).map (fun u => u.uuid) } :: readLoop c (i + 1) n

/-- Function `read_merlin_playlist` from `merlin_renamer.py`, on the container's
bytes (`num_entries = file_size // ENTRY_SIZE`). -/
def read_merlin_playlist (c : List Byte) : List PlaylistItem :=
  readLoop c 0 (c.length / 256)

/-! ## Title resolution (`get_id3_title` and the priority policy in `main`) -/

/-- ID3 frame keys used by the source (`'TIT2'`, `'TIT1'`, `'TALB'`,
`'TRCK'`). -/
inductive TagKey
  | TIT2 | TIT1 | TALB | TRCK
deriving DecidableEq, Repr

/-- Values of `title_source` in `main` (spec names: `ID3` = EMBEDDED_TAG,
`PLAYLIST` = PLAYLIST_TEXT, `UUID` = IDENTIFIER_FALLBACK). -/
inductive TitleSource
  | ID3 | PLAYLIST | UUID
deriving DecidableEq, Repr

/-- Python truthiness of a string. -/
def pyTruthyStr (s : List Nat) : Bool := !s.isEmpty

/-- Python truthiness of an optional string. -/
def pyTruthyOpt : Option (List Nat) → Bool
  | none => false
  | some s => pyTruthyStr s

/-- The tag loop of `get_id3_title`: `for tag in ['TIT2','TIT1','TALB']`,
returning the first frame whose text is non-empty with length at least 3
(a frame failing the test does not abort the loop). -/
def tryTagKeys (tags : TagKey → Option (List Nat)) :
    List TagKey → Option (List Nat)
  | [] => none
  | k :: ks =>
    match tags k with
    | some text =>
      if pyTruthyStr text && decide (3 ≤ text.length) then some text
      else tryTagKeys tags ks
    | none => tryTagKeys tags ks

/-- Function `get_id3_title` from `merlin_renamer.py`.  The `ID3(filepath)` object
is abstracted as an optional frame table (`none` models the
`except: pass` case of an unreadable file). -/
def get_id3_title (hasMutagen : Bool)
    (id3 : Option (TagKey → Option (List Nat))) : Option (List Nat) :=
  if !hasMutagen then none
  else
    match id3 with
    | none => none
    | some tags => tryTagKeys tags [TagKey.TIT2, TagKey.TIT1, TagKey.TALB]

/-- The priority policy of `main` (lines 236–244):
`if id3_title: ... elif pl_title and not is_uuid_like(pl_title): ... else ...`. -/
def resolveTitle (id3_title pl_title : Option (List Nat)) (uuid : List Nat) :
    List Nat × TitleSource :=
  if pyTruthyOpt id3_title then (id3_title.getD [], TitleSource.ID3)
  else if pyTruthyOpt pl_title && !is_uuid_like (pl_title.getD []) then
    (pl_title.getD [], TitleSource.PLAYLIST)
  else (uuid, TitleSource.UUID)

/-- The per-entry resolution of `main`:
`id3_title = get_id3_title(str(src_mp3)) if mp3_exists and HAS_MUTAGEN else None`,
`pl_title = item['pl_title'] if not args.id3_only else None`, then the
priority policy. -/
def resolveEntry (hasMutagen mp3Exists id3Only : Bool)
    (id3 : Option (TagKey → Option (List Nat)))
    (plTitle uuid : List Nat) : List Nat × TitleSource :=
  let id3_title :=
    if mp3Exists && hasMutagen then get_id3_title hasMutagen id3 else none
  let pl_title := if !id3Only then some plTitle else none
  resolveTitle id3_title pl_title uuid

/-! ## Concrete inputs used by witnesses -/

/-- Code points of `"1c74e8f3-123e-4497-964b-6720f1817071"` (the sample
UUID of the spec's scenario). -/
def uuidACodes : List Nat :=
  [49, 99, 55, 52, 101, 56, 102, 51, 45, 49, 50, 51, 101, 45, 52, 52, 57, 55,
   45, 57, 54, 52, 98, 45, 54, 55, 50, 48, 102, 49, 56, 49, 55, 48, 55, 49]

/-- Code points of `"My Favorite Song"`. -/
def titleCodes : List Nat :=
  [77, 121, 32, 70, 97, 118, 111, 114, 105, 116, 101, 32, 83, 111, 110, 103]

/-- Marker bytes followed by the sample UUID text. -/
def entryM : List Byte := bytesOf (UUID_MARKER ++ uuidACodes)

/-- A 256-byte container: one record holding marker + UUID, zero padded. -/
def containerA : List Byte := entryM ++ bytesOf (List.replicate 215 0)

/-- A 256-byte container: a title run, a separator byte, marker + UUID,
zero padded. -/
def containerB : List Byte :=
  bytesOf titleCodes ++ bytesOf [0] ++ entryM ++ bytesOf (List.replicate 198 0)

/-- Code points of `"Café d'été"`. -/
def cafeCodes : List Nat := [67, 97, 102, 233, 32, 100, 39, 233, 116, 233]

/-- Code points of `"Café d_été"` (apostrophe replaced, accents kept). -/
def cafeLegacyOut : List Nat := [67, 97, 102, 233, 32, 100, 95, 233, 116, 233]

/-! ## Selection lemmas for the stable descending sort -/

theorem mem_insertByLenDesc (x c : Nat × List Nat) :
    ∀ l : List (Nat × List Nat), c ∈ insertByLenDesc x l ↔ c = x ∨ c ∈ l
  | [] => by simp [insertByLenDesc]
  | y :: ys => by
    by_cases h : y.2.length ≤ x.2.length
    · simp [insertByLenDesc, if_pos h]
    · simp only [insertByLenDesc, if_neg h, List.mem_cons,
        mem_insertByLenDesc x c ys]
      tauto

theorem mem_sortByLenDesc (c : Nat × List Nat) :
    ∀ l : List (Nat × List Nat), c ∈ sortByLenDesc l ↔ c ∈ l
  | [] => Iff.rfl
  | x :: xs => by
    show c ∈ insertByLenDesc x (sortByLenDesc xs) ↔ _
    rw [mem_insertByLenDesc, mem_sortByLenDesc c xs, List.mem_cons]

/-- The head of the stable descending-length sort is the first element of
maximal text length: the input splits as `l1 ++ r :: l2` where everything
in `l1` is strictly shorter than `r` and nothing anywhere is longer. -/
theorem sortByLenDesc_head :
    ∀ l : List (Nat × List Nat), l ≠ [] →
      ∃ l1 r l2, l = l1 ++ r :: l2 ∧ (sortByLenDesc l).head? = some r ∧
        (∀ c ∈ l1, c.2.length < r.2.length) ∧
        (∀ c ∈ l, c.2.length ≤ r.2.length)
  | [], h => absurd rfl h
  | x :: rest, _ => by
    cases hr : rest with
    | nil =>
      refine ⟨[], x, [], by simp, ?_, by simp, by simp⟩
      show (insertByLenDesc x (sortByLenDesc [])).head? = some x
      simp [sortByLenDesc, insertByLenDesc]
    | cons z zs =>
      obtain ⟨l1, r, l2, hsplit, hhead, hlt, hle⟩ :=
        sortByLenDesc_head rest (by simp [hr])
      rw [← hr]
      cases hs : sortByLenDesc rest with
      | nil => rw [hs] at hhead; cases hhead
      | cons a s' =>
        rw [hs] at hhead
        have ha : a = r := by injection hhead
        subst ha
        have hstep : sortByLenDesc (x :: rest) = insertByLenDesc x (a :: s') := by
          show insertByLenDesc x (sortByLenDesc rest) = _
          rw [hs]
        by_cases hc : a.2.length ≤ x.2.length
        · refine ⟨[], x, rest, by simp, ?_, by simp, ?_⟩
          · rw [hstep]; simp [insertByLenDesc, if_pos hc]
          · intro c hc'
            rcases List.mem_cons.mp hc' with h | h
            · subst h; exact le_rfl
            · exact le_trans (hle c h) hc
        · refine ⟨x :: l1, a, l2, by rw [hsplit]; simp, ?_, ?_, ?_⟩
          · rw [hstep]; simp [insertByLenDesc, if_neg hc]
          · intro c hc'
            rcases List.mem_cons.mp hc' with h | h
            · subst h; omega
            · exact hlt c h
          · intro c hc'
            rcases List.mem_cons.mp hc' with h | h
            · subst h; omega
            · exact hle c h

/-- Extraction of the conditions that `filterDecoded` imposed on a
returned candidate. -/
theorem filterDecoded_some (off : Nat) (cs : List Nat) (p : Nat × List Nat)
    (h : filterDecoded off cs = some p) :
    p = (off, pyStrip cs) ∧ 8 ≤ p.2.length ∧ is_uuid_like p.2 = false ∧
      3 ≤ alphaCount p.2 := by
  simp only [filterDecoded] at h
  split at h
  · split at h
    · split at h
      · have hp : (off, pyStrip cs) = p := Option.some.inj h
        subst hp
        refine ⟨rfl, by assumption, by assumption, by assumption⟩
      · cases h
    · cases h
  · cases h

theorem candidateOfRun_some (off : Nat) (bs : List Byte) (p : Nat × List Nat)
    (h : candidateOfRun off bs = some p) :
    8 ≤ p.2.length ∧ is_uuid_like p.2 = false ∧ 3 ≤ alphaCount p.2 := by
  unfold candidateOfRun at h
  cases hu : utf8Decode bs with
  | some cs =>
    rw [hu] at h
    exact (filterDecoded_some off cs p h).2
  | none =>
    rw [hu] at h
    exact (filterDecoded_some off (latin1Decode bs) p h).2

/-- C5: for every record whose text detection yields at least one surviving
candidate, `playlist_title` is the longest surviving candidate, ties
between equal-length candidates broken in favour of the one occurring
first in the record (stable sort by descending length); with no surviving
candidate the title is the empty string. -/
theorem c5_longest_candidate (entry : List Byte) :
    (textCandidates entry = [] → extract_title_from_entry entry = []) ∧
    (textCandidates entry ≠ [] →
      ∃ l1 r l2, textCandidates entry = l1 ++ r :: l2 ∧
        extract_title_from_entry entry = r.2 ∧
        (∀ c ∈ l1, c.2.length < r.2.length) ∧
        (∀ c ∈ textCandidates entry, c.2.length ≤ r.2.length)) := by
  constructor
  · intro h
    unfold extract_title_from_entry
    rw [h]
    rfl
  · intro h
    obtain ⟨l1, r, l2, hsplit, hhead, hlt, hle⟩ :=
      sortByLenDesc_head (textCandidates entry) h
    refine ⟨l1, r, l2, hsplit, ?_, hlt, hle⟩
    unfold extract_title_from_entry
    cases hs : sortByLenDesc (textCandidates entry) with
    | nil => rw [hs] at hhead; cases hhead
    | cons a s' =>
      rw [hs] at hhead
      have : a = r := by injection hhead
      rw [this]

theorem c5_longest_candidate_witness :
    textCandidates (bytesOf titleCodes) ≠ [] ∧
    (∃ l1 r l2, textCandidates (bytesOf titleCodes) = l1 ++ r :: l2 ∧
      extract_title_from_entry (bytesOf titleCodes) = r.2 ∧
      (∀ c ∈ l1, c.2.length < r.2.length) ∧
      (∀ c ∈ textCandidates (bytesOf titleCodes), c.2.length ≤ r.2.length)) :=
  ⟨by decide, (c5_longest_candidate (bytesOf titleCodes)).2 (by decide)⟩

/-- C6: an identifier-like text run is never selected as the playlist
title — the extracted title is never `is_uuid_like` (when no candidate
survives the result is `""`, for which `is_uuid_like` is `False`). -/
theorem c6_uuid_like_never_selected (entry : List Byte) :
    is_uuid_like (extract_title_from_entry entry) = false := by
  unfold extract_title_from_entry
  cases hs : sortByLenDesc (textCandidates entry) with
  | nil => rfl
  | cons a s' =>
    have ha : a ∈ textCandidates entry :=
      (mem_sortByLenDesc a (textCandidates entry)).mp
        (hs ▸ List.mem_cons_self a s')
    obtain ⟨run, _, hsome⟩ := List.mem_filterMap.mp ha
    exact (candidateOfRun_some run.1 run.2 a hsome).2.1

/-- C10: the latin-1 fallback decode is total, so the silent-drop branch
for runs failing both decodes is unreachable: every printable run reaches
the length/alphabetic/identifier-likeness filters with its decoded text
(the utf-8 decode when it succeeds, else the latin-1 decode). -/
theorem c10_fallback_decode_total (off : Nat) (bs : List Byte) :
    latin1DecodeOpt bs = some (latin1Decode bs) ∧
    candidateOfRun off bs =
      filterDecoded off ((utf8Decode bs).getD (latin1Decode bs)) := by
  refine ⟨rfl, ?_⟩
  unfold candidateOfRun
  cases h : utf8Decode bs with
  | some cs => simp
  | none => simp [latin1DecodeOpt]

/-- C7 fails on the code: `sanitize` is not idempotent.  On `"._ abc"`
the `.strip("._-")` step exposes a leading space, so the first
application returns `" abc"` and the second `"abc"`. -/
theorem c7_counterexample :
    sanitize_filename 60 (sanitize_filename 60 [46, 95, 32, 97, 98, 99]) ≠
      sanitize_filename 60 [46, 95, 32, 97, 98, 99] := by decide

/-- C9 fails on the code: the legacy variant does not reduce
`"Café d'été"` to `"Caf_ d__t_"` — Python's `str.isalnum` is
Unicode-aware, so the accented letters survive and only the apostrophe is
replaced. -/
theorem c9_counterexample :
    sanitize_filename_legacy 60 cafeCodes ≠
      [67, 97, 102, 95, 32, 100, 95, 95, 116, 95] := by decide

/-- C9 (amended): the canonical sanitize returns `"Café d'été"`
unchanged; the legacy alnum-keeping variant returns `"Café d_été"`
(apostrophe replaced by an underscore, accents preserved); in particular
the two sanitize implementations are not extensionally equal. -/
theorem c9_divergent_sanitizers :
    sanitize_filename 60 cafeCodes = cafeCodes ∧
    sanitize_filename_legacy 60 cafeCodes = cafeLegacyOut ∧
    sanitize_filename 60 cafeCodes ≠ sanitize_filename_legacy 60 cafeCodes :=
  ⟨by decide, by decide, by decide⟩

/-! ## C1: title resolution priority -/

/-- Guarantee of the tag loop: a returned frame text is non-empty with
length at least 3. -/
theorem tryTagKeys_some (tags : TagKey → Option (List Nat)) :
    ∀ ks t, tryTagKeys tags ks = some t → pyTruthyStr t = true ∧ 3 ≤ t.length
  | [], t, h => by cases h
  | k :: ks, t, h => by
    cases hk : tags k with
    | none =>
      simp only [tryTagKeys, hk] at h
      exact tryTagKeys_some tags ks t h
    | some text =>
      simp only [tryTagKeys, hk] at h
      by_cases hc : (pyTruthyStr text && decide (3 ≤ text.length)) = true
      · rw [if_pos hc] at h
        have ht : text = t := Option.some.inj h
        subst ht
        simpa using hc
      · rw [if_neg hc] at h
        exact tryTagKeys_some tags ks t h

theorem get_id3_title_some (hasMutagen : Bool)
    (id3 : Option (TagKey → Option (List Nat))) (t : List Nat)
    (h : get_id3_title hasMutagen id3 = some t) :
    pyTruthyStr t = true ∧ 3 ≤ t.length := by
  unfold get_id3_title at h
  split at h
  · cases h
  · cases id3 with
    | none => cases h
    | some tags => exact tryTagKeys_some tags _ t h

/-- C1: title resolution priority.  Writing `lookup` for the gated
embedded-tag lookup of `main` (`get_id3_title` when the media file exists
and mutagen is available, else nothing): (1) if `lookup` returns a string,
that string is non-empty of length at least 3, and it becomes the final
title with source `ID3` (EMBEDDED_TAG); (2) otherwise, unless the
`--id3-only` flag is set, a non-empty, non-identifier-like playlist title
becomes the final title with source `PLAYLIST` (PLAYLIST_TEXT); (3)
otherwise the canonical UUID becomes the final title with source `UUID`
(IDENTIFIER_FALLBACK). -/
theorem c1_title_priority (hasMutagen mp3Exists id3Only : Bool)
    (id3 : Option (TagKey → Option (List Nat))) (plTitle uuid : List Nat) :
    (∀ t, (if mp3Exists && hasMutagen then get_id3_title hasMutagen id3
            else none) = some t →
      pyTruthyStr t = true ∧ 3 ≤ t.length ∧
        resolveEntry hasMutagen mp3Exists id3Only id3 plTitle uuid =
          (t, TitleSource.ID3)) ∧
    ((if mp3Exists && hasMutagen then get_id3_title hasMutagen id3
        else none) = none →
      id3Only = false → plTitle ≠ [] → is_uuid_like plTitle = false →
      resolveEntry hasMutagen mp3Exists id3Only id3 plTitle uuid =
        (plTitle, TitleSource.PLAYLIST)) ∧
    ((if mp3Exists && hasMutagen then get_id3_title hasMutagen id3
        else none) = none →
      (id3Only = true ∨ plTitle = [] ∨ is_uuid_like plTitle = true) →
      resolveEntry hasMutagen mp3Exists id3Only id3 plTitle uuid =
        (uuid, TitleSource.UUID)) := by
  refine ⟨?_, ?_, ?_⟩
  · intro t ht
    obtain ⟨h1, h2⟩ : pyTruthyStr t = true ∧ 3 ≤ t.length := by
      by_cases hg : (mp3Exists && hasMutagen) = true
      · rw [if_pos hg] at ht
        exact get_id3_title_some hasMutagen id3 t ht
      · rw [if_neg hg] at ht; cases ht
    refine ⟨h1, h2, ?_⟩
    simp only [resolveEntry, resolveTitle]
    rw [ht]
    simp [pyTruthyOpt, h1]
  · intro h0 hflag hne huuid
    subst hflag
    simp only [resolveEntry, resolveTitle]
    rw [h0]
    simp [pyTruthyOpt, pyTruthyStr, hne, huuid]
  · intro h0 hcase
    simp only [resolveEntry, resolveTitle]
    rw [h0]
    cases id3Only with
    | true => simp [pyTruthyOpt]
    | false =>
      rcases hcase with h | h | h
      · cases h
      · subst h
        simp [pyTruthyOpt, pyTruthyStr]
      · simp [pyTruthyOpt, h]

/-- Frame table used by the C1 witness: only `TIT2` is present, holding
`"Real Title"`. -/
def tagsW : TagKey → Option (List Nat) :=
  fun k =>
    match k with
    | TagKey.TIT2 => some [82, 101, 97, 108, 32, 84, 105, 116, 108, 101]
    | _ => none

theorem c1_title_priority_witness :
    pyTruthyStr [82, 101, 97, 108, 32, 84, 105, 116, 108, 101] = true ∧
    3 ≤ ([82, 101, 97, 108, 32, 84, 105, 116, 108, 101] : List Nat).length ∧
    resolveEntry true true false (some tagsW) titleCodes uuidACodes =
      ([82, 101, 97, 108, 32, 84, 105, 116, 108, 101], TitleSource.ID3) :=
  (c1_title_priority true true false (some tagsW) titleCodes uuidACodes).1
    [82, 101, 97, 108, 32, 84, 105, 116, 108, 101] (by decide)

/-! ## C4: the marker window -/

/-- C4: for an identifier found at offset `k`, `has_marker` is true iff
the exact 5-byte marker sequence `4C 61 94 69 24` (`UUID_MARKER`) occurs
at some offset in `[k-5, k-1]` (expressed without truncated subtraction
as `j < k ∧ k ≤ j + 5`) within the record. -/
theorem c4_marker_window (entry : List Byte) (u : UuidMatch)
    (hu : u ∈ find_uuids_in_entry entry) :
    u.has_marker = true ↔
      ∃ j, j < u.offset ∧ u.offset ≤ j + 5 ∧
        ((entry.drop j).take 5).map Fin.val = UUID_MARKER := by
  obtain ⟨k, _, rfl⟩ := List.mem_map.mp hu
  show hasMarkerNear entry k = true ↔
    ∃ j, j < k ∧ k ≤ j + 5 ∧ ((entry.drop j).take 5).map Fin.val = UUID_MARKER
  unfold hasMarkerNear
  rw [List.any_eq_true]
  constructor
  · rintro ⟨j, hj, hmk⟩
    have hb := List.mem_range'_1.mp hj
    exact ⟨j, by omega, by omega, of_decide_eq_true hmk⟩
  · rintro ⟨j, hj1, hj2, hmk⟩
    refine ⟨j, List.mem_range'_1.mpr (by omega), decide_eq_true hmk⟩

theorem c4_marker_window_witness :
    ((⟨uuidACodes, 5, true⟩ : UuidMatch).has_marker = true ↔
      ∃ j, j < (⟨uuidACodes, 5, true⟩ : UuidMatch).offset ∧
        (⟨uuidACodes, 5, true⟩ : UuidMatch).offset ≤ j + 5 ∧
        ((entryM.drop j).take 5).map Fin.val = UUID_MARKER) :=
  c4_marker_window entryM ⟨uuidACodes, 5, true⟩ (by decide)

/-! ## C2/C3: the record scan -/

theorem itemAt_some (c : List Byte) (i : Nat) (it : PlaylistItem)
    (h : itemAt c i = some it) :
    it.index = i ∧ find_uuids_in_entry (recordAt c i) ≠ [] := by
  unfold itemAt at h
  cases hu : find_uuids_in_entry (recordAt c i) with
  | nil => rw [hu] at h; cases h
  | cons u0 us =>
    rw [hu] at h
    have := Option.some.inj h
    subst this
    exact ⟨rfl, by simp⟩

theorem itemAt_nil (c : List Byte) (i : Nat)
    (h : find_uuids_in_entry (recordAt c i) = []) : itemAt c i = none := by
  unfold itemAt
  rw [h]

theorem itemAt_cons (c : List Byte) (i : Nat) (u0 : UuidMatch)
    (us : List UuidMatch) (h : find_uuids_in_entry (recordAt c i) = u0 :: us) :
    itemAt c i =
      some { index := i
             uuid := file_uuid_of u0 (u0 :: us)
             pl_title := extract_title_from_entry (recordAt c i)
             all_uuids := (u0 :: us).map (fun u => u.uuid) } := by
  unfold itemAt
  rw [h]

/-- Characterization of the scanning loop: with all scanned records fully
inside the container, the loop is the `filterMap` of the per-record item
over the scanned indices (in particular the `break` guard never fires). -/
theorem readLoop_eq (c : List Byte) :
    ∀ n i, (i + n) * 256 ≤ c.length →
      readLoop c i n = (List.range n).filterMap (fun k => itemAt c (i + k))
  | 0, i, _ => rfl
  | n + 1, i, h => by
    have hfull : (recordAt c i).length = 256 := by
      unfold recordAt
      rw [List.length_take, List.length_drop]
      omega
    have hrec : readLoop c (i + 1) n =
        (List.range n).filterMap (fun k => itemAt c (i + 1 + k)) :=
      readLoop_eq c n (i + 1) (by omega)
    have hshift : (List.range n).filterMap (fun k => itemAt c (i + (k + 1))) =
        (List.range n).filterMap (fun k => itemAt c (i + 1 + k)) := by
      apply List.filterMap_congr
      intro a _
      congr 1
      omega
    show (if (recordAt c i).length < 256 then []
      else match find_uuids_in_entry (recordAt c i) with
      | [] => readLoop c (i + 1) n
      | u0 :: us =>
        { index := i
          uuid := file_uuid_of u0 (u0 :: us)
          pl_title := extract_title_from_entry (recordAt c i)
          all_uuids := (u0 :: us).map (fun u => u.uuid) } :: readLoop c (i + 1) n) = _
    rw [if_neg (by omega), List.range_succ_eq_map, List.filterMap_cons,
      List.filterMap_map]
    cases hu : find_uuids_in_entry (recordAt c i) with
    | nil =>
      rw [hrec]
      simp only [Function.comp_def, Nat.succ_eq_add_one, Nat.add_zero,
        itemAt_nil c i hu, hshift]
    | cons u0 us =>
      rw [hrec]
      simp only [Function.comp_def, Nat.succ_eq_add_one, Nat.add_zero,
        itemAt_cons c i u0 us hu, hshift]

theorem read_merlin_playlist_eq (c : List Byte) :
    read_merlin_playlist c =
      (List.range (c.length / 256)).filterMap (itemAt c) := by
  unfold read_merlin_playlist
  rw [readLoop_eq c (c.length / 256) 0 (by simpa using Nat.div_mul_le_self c.length 256)]
  apply List.filterMap_congr
  intro a _
  rw [Nat.zero_add]

/-- C2: scanning splits the container into exactly `length / 256` records
of 256 bytes each; a shorter trailing tail never affects the result
(dropping it yields the same items); each record yields an entry iff at
least one UUID-pattern match occurs in it; and the number of emitted
entries is at most the number of records. -/
theorem c2_record_partition (c : List Byte) :
    (records c).length = c.length / 256 ∧
    (∀ r ∈ records c, r.length = 256) ∧
    (read_merlin_playlist c).length ≤ c.length / 256 ∧
    read_merlin_playlist c =
      read_merlin_playlist (c.take (c.length / 256 * 256)) ∧
    (∀ i, i < c.length / 256 →
      ((∃ it ∈ read_merlin_playlist c, it.index = i) ↔
        find_uuids_in_entry (recordAt c i) ≠ [])) := by
  have hmul : c.length / 256 * 256 ≤ c.length := Nat.div_mul_le_self _ _
  refine ⟨by simp [records], ?_, ?_, ?_, ?_⟩
  · intro r hr
    obtain ⟨i, hi, rfl⟩ := List.mem_map.mp hr
    have hi' : i < c.length / 256 := List.mem_range.mp hi
    unfold recordAt
    rw [List.length_take, List.length_drop]
    have : (i + 1) * 256 ≤ c.length / 256 * 256 := Nat.mul_le_mul_right _ hi'
    omega
  · rw [read_merlin_playlist_eq]
    calc ((List.range (c.length / 256)).filterMap (itemAt c)).length
        ≤ (List.range (c.length / 256)).length := List.length_filterMap_le _ _
      _ = c.length / 256 := List.length_range _
  · have hlen' : (c.take (c.length / 256 * 256)).length = c.length / 256 * 256 := by
      rw [List.length_take]; omega
    have hdiv : (c.take (c.length / 256 * 256)).length / 256 = c.length / 256 := by
      rw [hlen', Nat.mul_div_cancel _ (by omega)]
    rw [read_merlin_playlist_eq, read_merlin_playlist_eq, hdiv]
    apply List.filterMap_congr
    intro i hi
    have hi' : i < c.length / 256 := List.mem_range.mp hi
    have hrecEq : recordAt (c.take (c.length / 256 * 256)) i = recordAt c i := by
      unfold recordAt
      rw [List.drop_take]
      rw [List.take_take]
      congr 1
      have : (i + 1) * 256 ≤ c.length / 256 * 256 := Nat.mul_le_mul_right _ hi'
      omega
    unfold itemAt
    rw [hrecEq]
  · intro i hi
    rw [read_merlin_playlist_eq]
    constructor
    · rintro ⟨it, hit, hidx⟩
      obtain ⟨k, _, hk⟩ := List.mem_filterMap.mp hit
      obtain ⟨hk1, hk2⟩ := itemAt_some c k it hk
      rw [hidx] at hk1
      rw [hk1]
      exact hk2
    · intro hne
      cases hu : find_uuids_in_entry (recordAt c i) with
      | nil => exact absurd hu hne
      | cons u0 us =>
        refine ⟨{ index := i
                  uuid := file_uuid_of u0 (u0 :: us)
                  pl_title := extract_title_from_entry (recordAt c i)
                  all_uuids := (u0 :: us).map (fun u => u.uuid) }, ?_, rfl⟩
        apply List.mem_filterMap.mpr
        exact ⟨i, List.mem_range.mpr hi, itemAt_cons c i u0 us hu⟩

set_option maxRecDepth 100000 in
theorem c2_record_partition_witness :
    ∃ it ∈ read_merlin_playlist containerB, it.index = 0 :=
  ((c2_record_partition containerB).2.2.2.2 0 (by decide)).mpr (by decide)

/-- Every offset emitted by the match scan is at least the current
position. -/
theorem findGo_ge : ∀ f pos s, ∀ k ∈ findGo f pos s, pos ≤ k
  | 0, _, _ => by simp [findGo]
  | f + 1, pos, s => by
    intro k hk
    rw [findGo.eq_def] at hk
    simp only [] at hk
    by_cases hm : matchShape uuidShapeB s = true
    · rw [if_pos hm] at hk
      rcases List.mem_cons.mp hk with h | h
      · omega
      · have := findGo_ge f (pos + 36) (s.drop 36) k h
        omega
    · rw [if_neg hm] at hk
      cases s with
      | nil => cases hk
      | cons b rest =>
        have := findGo_ge f (pos + 1) rest k hk
        omega

/-- The offsets emitted by the match scan are strictly increasing. -/
theorem findGo_pairwise : ∀ f pos s, (findGo f pos s).Pairwise (· < ·)
  | 0, _, _ => by simp [findGo]
  | f + 1, pos, s => by
    rw [findGo.eq_def]
    simp only []
    by_cases hm : matchShape uuidShapeB s = true
    · rw [if_pos hm]
      rw [List.pairwise_cons]
      refine ⟨?_, findGo_pairwise f (pos + 36) (s.drop 36)⟩
      intro k hk
      have := findGo_ge f (pos + 36) (s.drop 36) k hk
      omega
    · rw [if_neg hm]
      cases s with
      | nil => simp
      | cons b rest => exact findGo_pairwise f (pos + 1) rest

theorem find_uuids_pairwise (entry : List Byte) :
    (find_uuids_in_entry entry).Pairwise (fun u v => u.offset < v.offset) := by
  unfold find_uuids_in_entry findMatches
  rw [List.pairwise_map]
  exact findGo_pairwise entry.length 0 entry

/-- C3: for every emitted entry, `canonical_uuid` is the first
marker-flagged identifier in ascending offset order when one exists, and
otherwise the first identifier in ascending offset order. -/
theorem c3_canonical_uuid (c : List Byte) (it : PlaylistItem)
    (hit : it ∈ read_merlin_playlist c) :
    find_uuids_in_entry (recordAt c it.index) ≠ [] ∧
    (find_uuids_in_entry (recordAt c it.index)).Pairwise
      (fun u v => u.offset < v.offset) ∧
    ((∃ u ∈ find_uuids_in_entry (recordAt c it.index), u.has_marker = true) →
      ∃ u ∈ find_uuids_in_entry (recordAt c it.index),
        u.has_marker = true ∧ it.uuid = u.uuid ∧
        ∀ v ∈ find_uuids_in_entry (recordAt c it.index),
          v.has_marker = true → u.offset ≤ v.offset) ∧
    ((∀ u ∈ find_uuids_in_entry (recordAt c it.index), u.has_marker = false) →
      ∃ u ∈ find_uuids_in_entry (recordAt c it.index),
        it.uuid = u.uuid ∧
        ∀ v ∈ find_uuids_in_entry (recordAt c it.index),
          u.offset ≤ v.offset) := by
  rw [read_merlin_playlist_eq] at hit
  obtain ⟨k, _, hk⟩ := List.mem_filterMap.mp hit
  cases hu : find_uuids_in_entry (recordAt c k) with
  | nil => rw [itemAt_nil c k hu] at hk; cases hk
  | cons u0 us =>
    rw [itemAt_cons c k u0 us hu] at hk
    have hk' := Option.some.inj hk
    subst hk'
    simp only [hu]
    have hpw : (u0 :: us).Pairwise (fun u v => u.offset < v.offset) := by
      have := find_uuids_pairwise (recordAt c k)
      rw [hu] at this
      exact this
    refine ⟨by simp, hpw, ?_, ?_⟩
    · intro hex
      show ∃ u ∈ u0 :: us, u.has_marker = true ∧
        file_uuid_of u0 (u0 :: us) = u.uuid ∧ _
      unfold file_uuid_of
      cases hf : (u0 :: us).filter (fun u => u.has_marker) with
      | nil =>
        obtain ⟨u, humem, hum⟩ := hex
        have : u ∈ (u0 :: us).filter (fun u => u.has_marker) :=
          List.mem_filter.mpr ⟨humem, hum⟩
        rw [hf] at this
        cases this
      | cons m ms =>
        have hmmem : m ∈ (u0 :: us).filter (fun u => u.has_marker) := by
          rw [hf]; exact List.mem_cons_self m ms
        have hmm : m ∈ u0 :: us := List.mem_of_mem_filter hmmem
        have hmark : m.has_marker = true := by
          have := List.of_mem_filter hmmem
          simpa using this
        refine ⟨m, hmm, hmark, rfl, ?_⟩
        intro v hv hvmark
        have hvf : v ∈ (u0 :: us).filter (fun u => u.has_marker) :=
          List.mem_filter.mpr ⟨hv, by simpa using hvmark⟩
        rw [hf] at hvf
        rcases List.mem_cons.mp hvf with h | h
        · subst h; exact le_rfl
        · have hpf : ((u0 :: us).filter (fun u => u.has_marker)).Pairwise
              (fun u v => u.offset < v.offset) := hpw.filter _
          rw [hf, List.pairwise_cons] at hpf
          exact le_of_lt (hpf.1 v h)
    · intro hall
      show ∃ u ∈ u0 :: us,
        file_uuid_of u0 (u0 :: us) = u.uuid ∧ _
      unfold file_uuid_of
      cases hf : (u0 :: us).filter (fun u => u.has_marker) with
      | nil =>
        refine ⟨u0, List.mem_cons_self u0 us, rfl, ?_⟩
        intro v hv
        rcases List.mem_cons.mp hv with h | h
        · subst h; exact le_rfl
        · rw [List.pairwise_cons] at hpw
          exact le_of_lt (hpw.1 v h)
      | cons m ms =>
        have hmmem : m ∈ (u0 :: us).filter (fun u => u.has_marker) := by
          rw [hf]; exact List.mem_cons_self m ms
        have hmark : m.has_marker = true := by
          have := List.of_mem_filter hmmem
          simpa using this
        have := hall m (List.mem_of_mem_filter hmmem)
        rw [this] at hmark
        cases hmark

/-- The single item parsed from `containerA`. -/
def itemA : PlaylistItem :=
  { index := 0, uuid := uuidACodes, pl_title := [], all_uuids := [uuidACodes] }

set_option maxRecDepth 100000 in
theorem c3_canonical_uuid_witness :
    itemA ∈ read_merlin_playlist containerA ∧
    (find_uuids_in_entry (recordAt containerA itemA.index) ≠ [] ∧
    (find_uuids_in_entry (recordAt containerA itemA.index)).Pairwise
      (fun u v => u.offset < v.offset) ∧
    ((∃ u ∈ find_uuids_in_entry (recordAt containerA itemA.index),
        u.has_marker = true) →
      ∃ u ∈ find_uuids_in_entry (recordAt containerA itemA.index),
        u.has_marker = true ∧ itemA.uuid = u.uuid ∧
        ∀ v ∈ find_uuids_in_entry (recordAt containerA itemA.index),
          v.has_marker = true → u.offset ≤ v.offset) ∧
    ((∀ u ∈ find_uuids_in_entry (recordAt containerA itemA.index),
        u.has_marker = false) →
      ∃ u ∈ find_uuids_in_entry (recordAt containerA itemA.index),
        itemA.uuid = u.uuid ∧
        ∀ v ∈ find_uuids_in_entry (recordAt containerA itemA.index),
          u.offset ≤ v.offset)) :=
  ⟨by decide, c3_canonical_uuid containerA itemA (by decide)⟩

/-! ## Sanitize lemmas (C7, C8) -/

theorem replaceInvalid_no_invalid (t : List Nat) :
    ∀ c ∈ replaceInvalid t, invalidChar c = false := by
  intro c hc
  obtain ⟨a, _, hev⟩ := List.mem_map.mp hc
  by_cases h : invalidChar a = true
  · rw [if_pos h] at hev
    rw [← hev]
    decide
  · rw [if_neg h] at hev
    rw [← hev]
    exact Bool.eq_false_iff.mpr h

theorem replaceInvalid_id (t : List Nat)
    (h : ∀ c ∈ t, invalidChar c = false) : replaceInvalid t = t := by
  induction t with
  | nil => rfl
  | cons a rest ih =>
    unfold replaceInvalid at ih ⊢
    rw [List.map_cons]
    rw [if_neg (by rw [h a (List.mem_cons_self a rest)]; simp)]
    rw [ih (fun c hc => h c (List.mem_cons_of_mem a hc))]

theorem hasDbl_tail (a x : Nat) (l : List Nat)
    (h : hasDbl a (x :: l) = false) : hasDbl a l = false := by
  cases l with
  | nil => rfl
  | cons y rest =>
    rw [hasDbl] at h
    exact (Bool.or_eq_false_iff.mp h).2

theorem hasDbl_of_append_right (a : Nat) :
    ∀ s t : List Nat, hasDbl a (s ++ t) = false → hasDbl a s = false
  | [], _, _ => rfl
  | [x], _, _ => rfl
  | x :: y :: rest, t, h => by
    rw [List.cons_append, List.cons_append] at h
    rw [hasDbl] at h ⊢
    rw [Bool.or_eq_false_iff] at h ⊢
    refine ⟨h.1, ?_⟩
    have := hasDbl_of_append_right a (y :: rest) t
    rw [List.cons_append] at this
    exact this h.2

theorem hasDbl_of_append_left (a : Nat) :
    ∀ p s : List Nat, hasDbl a (p ++ s) = false → hasDbl a s = false
  | [], _, h => h
  | x :: p, s, h => by
    rw [List.cons_append] at h
    exact hasDbl_of_append_left a p s (hasDbl_tail a x (p ++ s) h)

theorem replaceAll_len_le (a : Nat) :
    ∀ l : List Nat, (replaceAll2to1 a l).length ≤ l.length
  | [] => by simp [replaceAll2to1]
  | [x] => by simp [replaceAll2to1]
  | x :: y :: rest => by
    by_cases h : x = a ∧ y = a
    · rw [replaceAll2to1, if_pos h]
      have := replaceAll_len_le a rest
      simp only [List.length_cons]
      omega
    · rw [replaceAll2to1, if_neg h]
      have := replaceAll_len_le a (y :: rest)
      simp only [List.length_cons] at this ⊢
      omega

theorem replaceAll_len_lt (a : Nat) :
    ∀ l : List Nat, hasDbl a l = true → (replaceAll2to1 a l).length < l.length
  | [], h => by cases h
  | [x], h => by cases h
  | x :: y :: rest, h => by
    by_cases hxy : x = a ∧ y = a
    · rw [replaceAll2to1, if_pos hxy]
      have := replaceAll_len_le a rest
      simp only [List.length_cons]
      omega
    · have h2 : hasDbl a (y :: rest) = true := by
        rw [hasDbl] at h
        rcases Bool.or_eq_true_iff.mp h with h' | h'
        · exact absurd ⟨of_decide_eq_true (Bool.and_eq_true_iff.mp h').1,
            of_decide_eq_true (Bool.and_eq_true_iff.mp h').2⟩ hxy
        · exact h'
      rw [replaceAll2to1, if_neg hxy]
      have := replaceAll_len_lt a (y :: rest) h2
      simp only [List.length_cons] at this ⊢
      omega

theorem mem_replaceAll (a : Nat) :
    ∀ l c, c ∈ replaceAll2to1 a l → c ∈ l
  | [], c, h => h
  | [x], c, h => h
  | x :: y :: rest, c, h => by
    by_cases hxy : x = a ∧ y = a
    · rw [replaceAll2to1, if_pos hxy] at h
      rcases List.mem_cons.mp h with h' | h'
      · subst h'; rw [hxy.1]; exact List.mem_cons_self _ _
      · exact List.mem_cons_of_mem _ (List.mem_cons_of_mem _
          (mem_replaceAll a rest c h'))
    · rw [replaceAll2to1, if_neg hxy] at h
      rcases List.mem_cons.mp h with h' | h'
      · subst h'; exact List.mem_cons_self _ _
      · exact List.mem_cons_of_mem _ (mem_replaceAll a (y :: rest) c h')

theorem replaceAll_headq (a x : Nat) (l : List Nat) :
    (replaceAll2to1 a (x :: l)).head? = some x := by
  cases l with
  | nil => rfl
  | cons y rest =>
    by_cases hxy : x = a ∧ y = a
    · rw [replaceAll2to1, if_pos hxy]
      rw [hxy.1]
      rfl
    · rw [replaceAll2to1, if_neg hxy]
      rfl

theorem replaceAll_nodbl_other (a b : Nat) (hab : a ≠ b) :
    ∀ l : List Nat, hasDbl a l = false →
      hasDbl a (replaceAll2to1 b l) = false
  | [], _ => rfl
  | [x], _ => rfl
  | x :: y :: rest, h => by
    have hxya : (decide (x = a) && decide (y = a)) = false ∧
        hasDbl a (y :: rest) = false := by
      rw [hasDbl] at h
      exact Bool.or_eq_false_iff.mp h
    by_cases hb : x = b ∧ y = b
    · rw [replaceAll2to1, if_pos hb]
      have hrest : hasDbl a rest = false := hasDbl_tail a y rest hxya.2
      have hrec := replaceAll_nodbl_other a b hab rest hrest
      cases hr : replaceAll2to1 b rest with
      | nil => rfl
      | cons z zs =>
        rw [hasDbl]
        rw [Bool.or_eq_false_iff]
        constructor
        · have : decide (b = a) = false := by
            simp [Ne.symm hab]
          rw [this, Bool.false_and]
        · rw [← hr]
          exact hrec
    · rw [replaceAll2to1, if_neg hb]
      have hrec := replaceAll_nodbl_other a b hab (y :: rest) hxya.2
      have hh := replaceAll_headq b y rest
      cases hr : replaceAll2to1 b (y :: rest) with
      | nil => rfl
      | cons z zs =>
        rw [hr] at hh
        have hz : z = y := by
          have := Option.some.inj hh
          exact this
        subst hz
        rw [hasDbl]
        rw [Bool.or_eq_false_iff]
        refine ⟨hxya.1, ?_⟩
        rw [← hr]
        exact hrec

theorem collapseGo_nodbl (a : Nat) :
    ∀ f l, l.length ≤ f → hasDbl a (collapseGo a f l) = false
  | 0, l, h => by
    have hl : l = [] := List.length_eq_zero.mp (by omega)
    subst hl
    rfl
  | f + 1, l, h => by
    by_cases hd : hasDbl a l = true
    · rw [collapseGo, if_pos hd]
      have := replaceAll_len_lt a l hd
      exact collapseGo_nodbl a f _ (by omega)
    · rw [collapseGo, if_neg hd]
      exact Bool.eq_false_iff.mpr hd

theorem collapseGo_id (a : Nat) (f : Nat) (l : List Nat)
    (h : hasDbl a l = false) : collapseGo a f l = l := by
  cases f with
  | zero => rfl
  | succ f => rw [collapseGo, if_neg (by rw [h]; simp)]

theorem mem_collapseGo (a : Nat) :
    ∀ f l c, c ∈ collapseGo a f l → c ∈ l
  | 0, l, c, h => h
  | f + 1, l, c, h => by
    by_cases hd : hasDbl a l = true
    · rw [collapseGo, if_pos hd] at h
      exact mem_replaceAll a l c (mem_collapseGo a f _ c h)
    · rw [collapseGo, if_neg hd] at h
      exact h

theorem collapseGo_nodbl_other (a b : Nat) (hab : a ≠ b) :
    ∀ f l, hasDbl a l = false → hasDbl a (collapseGo b f l) = false
  | 0, _, h => h
  | f + 1, l, h => by
    by_cases hd : hasDbl b l = true
    · rw [collapseGo, if_pos hd]
      exact collapseGo_nodbl_other a b hab f _
        (replaceAll_nodbl_other a b hab l h)
    · rw [collapseGo, if_neg hd]
      exact h

theorem rstripP_decomp (p : Nat → Bool) :
    ∀ l : List Nat, ∃ t, l = rstripP p l ++ t
  | [] => ⟨[], rfl⟩
  | x :: rest => by
    obtain ⟨t, ht⟩ := rstripP_decomp p rest
    cases hr : rstripP p rest with
    | nil =>
      by_cases hp : p x = true
      · refine ⟨x :: rest, ?_⟩
        rw [rstripP, hr, if_pos hp]
        rfl
      · refine ⟨rest, ?_⟩
        rw [rstripP, hr, if_neg hp]
        rfl
    | cons y ys =>
      refine ⟨t, ?_⟩
      rw [rstripP, hr]
      rw [hr] at ht
      rw [List.cons_append, ← ht]

theorem rstripP_id (p : Nat → Bool) :
    ∀ l : List Nat, (∀ c, l.getLast? = some c → p c = false) →
      rstripP p l = l
  | [] => fun _ => rfl
  | [x] => fun h => by
    have hx : p x = false := h x rfl
    rw [rstripP, rstripP, if_neg (by rw [hx]; simp)]
  | x :: y :: rest => fun h => by
    have hrec : rstripP p (y :: rest) = y :: rest :=
      rstripP_id p (y :: rest) (fun c hc => h c (by
        rw [List.getLast?_cons_cons]
        exact hc))
    rw [rstripP, hrec]

theorem lstripP_id (p : Nat → Bool) (l : List Nat)
    (h : ∀ c, l.head? = some c → p c = false) : lstripP p l = l := by
  cases l with
  | nil => rfl
  | cons x rest =>
    unfold lstripP
    rw [List.dropWhile_cons, if_neg (by rw [h x rfl]; simp)]

theorem stripP_id (p : Nat → Bool) (l : List Nat)
    (hh : ∀ c, l.head? = some c → p c = false)
    (hl : ∀ c, l.getLast? = some c → p c = false) : stripP p l = l := by
  unfold stripP
  rw [lstripP_id p l hh]
  exact rstripP_id p l hl

theorem stripP_decomp (p : Nat → Bool) (l : List Nat) :
    ∃ pre t, l = pre ++ stripP p l ++ t := by
  obtain ⟨t, ht⟩ := rstripP_decomp p (lstripP p l)
  refine ⟨l.takeWhile p, t, ?_⟩
  have h0 : l.takeWhile p ++ lstripP p l = l :=
    List.takeWhile_append_dropWhile p l
  rw [List.append_assoc]
  show l = l.takeWhile p ++ (rstripP p (lstripP p l) ++ t)
  rw [← ht, h0]

theorem hasDbl_of_infix (a : Nat) (l pre mid t : List Nat)
    (hl : hasDbl a l = false) (hdec : l = pre ++ mid ++ t) :
    hasDbl a mid = false := by
  rw [List.append_assoc] at hdec
  rw [hdec] at hl
  exact hasDbl_of_append_right a mid t (hasDbl_of_append_left a pre _ hl)

theorem truncGo_decomp (m : Nat) :
    ∀ f l, ∃ t, l = truncGo m f l ++ t
  | 0, l => ⟨[], by simp [truncGo]⟩
  | f + 1, l => by
    by_cases hc : m < utf8Len l ∧ l ≠ []
    · obtain ⟨t, ht⟩ := truncGo_decomp m f l.dropLast
      refine ⟨t ++ [l.getLast hc.2], ?_⟩
      rw [truncGo, if_pos hc]
      conv_lhs => rw [← List.dropLast_append_getLast hc.2]
      conv_lhs => rw [ht]
      rw [List.append_assoc]
    · exact ⟨[], by simp [truncGo, if_neg hc]⟩

theorem truncGo_le (m : Nat) :
    ∀ f l, l.length ≤ f → utf8Len (truncGo m f l) ≤ m
  | 0, l, h => by
    have hl : l = [] := List.length_eq_zero.mp (by omega)
    subst hl
    rw [truncGo]
    simp [utf8Len]
  | f + 1, l, h => by
    by_cases hc : m < utf8Len l ∧ l ≠ []
    · rw [truncGo, if_pos hc]
      refine truncGo_le m f _ ?_
      have h1 : l.dropLast.length = l.length - 1 := List.length_dropLast l
      have h2 : 0 < l.length := List.length_pos.mpr hc.2
      omega
    · rw [truncGo, if_neg hc]
      by_cases hm : m < utf8Len l
      · have hl : l = [] := by tauto
        subst hl
        simp [utf8Len]
      · omega

theorem truncGo_id (m f : Nat) (l : List Nat) (h : utf8Len l ≤ m) :
    truncGo m f l = l := by
  cases f with
  | zero => rfl
  | succ f => rw [truncGo, if_neg (fun hc => absurd hc.1 (by omega))]

/-- Unfolding of `sanitize_filename` on a non-empty title. -/
theorem sanitize_eq (m : Nat) (t : List Nat) (h0 : ¬(t = [])) :
    sanitize_filename m t =
      if truncGo m (stripP isDotUH (stripP pyIsSpace
          (collapseAll 95 (collapseAll 32 (replaceInvalid t))))).length
        (stripP isDotUH (stripP pyIsSpace
          (collapseAll 95 (collapseAll 32 (replaceInvalid t))))) = []
      then unnamedStr
      else truncGo m (stripP isDotUH (stripP pyIsSpace
          (collapseAll 95 (collapseAll 32 (replaceInvalid t))))).length
        (stripP isDotUH (stripP pyIsSpace
          (collapseAll 95 (collapseAll 32 (replaceInvalid t))))) := by
  simp only [sanitize_filename, if_neg h0]

theorem collapseAll_props_a (l : List Nat)
    (hinv : ∀ c ∈ l, invalidChar c = false) :
    (∀ c ∈ collapseAll 32 l, invalidChar c = false) ∧
    hasDbl 32 (collapseAll 32 l) = false :=
  ⟨fun c hc => hinv c (mem_collapseGo 32 l.length l c hc),
   collapseGo_nodbl 32 l.length l le_rfl⟩

theorem collapseAll_props_b (l : List Nat)
    (hinv : ∀ c ∈ l, invalidChar c = false) (h32 : hasDbl 32 l = false) :
    (∀ c ∈ collapseAll 95 l, invalidChar c = false) ∧
    hasDbl 32 (collapseAll 95 l) = false ∧
    hasDbl 95 (collapseAll 95 l) = false :=
  ⟨fun c hc => hinv c (mem_collapseGo 95 l.length l c hc),
   collapseGo_nodbl_other 32 95 (by decide) l.length l h32,
   collapseGo_nodbl 95 l.length l le_rfl⟩

theorem stripP_props (p : Nat → Bool) (l : List Nat)
    (hinv : ∀ c ∈ l, invalidChar c = false)
    (h32 : hasDbl 32 l = false) (h95 : hasDbl 95 l = false) :
    (∀ c ∈ stripP p l, invalidChar c = false) ∧
    hasDbl 32 (stripP p l) = false ∧ hasDbl 95 (stripP p l) = false := by
  obtain ⟨pre, t, hdec⟩ := stripP_decomp p l
  refine ⟨?_, hasDbl_of_infix 32 l pre _ t h32 hdec,
    hasDbl_of_infix 95 l pre _ t h95 hdec⟩
  intro c hc
  apply hinv
  rw [hdec]
  simp only [List.mem_append]
  exact Or.inl (Or.inr hc)

theorem truncGo_props (m : Nat) (l : List Nat)
    (hinv : ∀ c ∈ l, invalidChar c = false)
    (h32 : hasDbl 32 l = false) (h95 : hasDbl 95 l = false) :
    (∀ c ∈ truncGo m l.length l, invalidChar c = false) ∧
    hasDbl 32 (truncGo m l.length l) = false ∧
    hasDbl 95 (truncGo m l.length l) = false ∧
    utf8Len (truncGo m l.length l) ≤ m := by
  obtain ⟨t, hdec⟩ := truncGo_decomp m l.length l
  have h32' : hasDbl 32 (truncGo m l.length l ++ t) = false := by
    rw [← hdec]; exact h32
  have h95' : hasDbl 95 (truncGo m l.length l ++ t) = false := by
    rw [← hdec]; exact h95
  refine ⟨?_, hasDbl_of_append_right 32 _ t h32',
    hasDbl_of_append_right 95 _ t h95', truncGo_le m l.length l le_rfl⟩
  intro c hc
  apply hinv
  rw [hdec]
  exact List.mem_append_left t hc

/-- Structural invariants of every `sanitize_filename` output: non-empty,
free of forbidden characters, no doubled space, no doubled underscore,
and within the byte budget (or the literal `"unnamed"`). -/
theorem sanitize_props (m : Nat) (t : List Nat) :
    sanitize_filename m t ≠ [] ∧
    (∀ c ∈ sanitize_filename m t, invalidChar c = false) ∧
    hasDbl 32 (sanitize_filename m t) = false ∧
    hasDbl 95 (sanitize_filename m t) = false ∧
    (utf8Len (sanitize_filename m t) ≤ m ∨
      sanitize_filename m t = unnamedStr) := by
  by_cases h0 : t = []
  · subst h0
    rw [show sanitize_filename m [] = unnamedStr from rfl]
    exact ⟨by decide, by decide, by decide, by decide, Or.inr rfl⟩
  · rw [sanitize_eq m t h0]
    obtain ⟨hinv1, h32a⟩ :=
      collapseAll_props_a (replaceInvalid t) (replaceInvalid_no_invalid t)
    obtain ⟨hinv2, h32b, h95b⟩ :=
      collapseAll_props_b (collapseAll 32 (replaceInvalid t)) hinv1 h32a
    obtain ⟨hinv3, h32c, h95c⟩ := stripP_props pyIsSpace _ hinv2 h32b h95b
    obtain ⟨hinv4, h32d, h95d⟩ := stripP_props isDotUH _ hinv3 h32c h95c
    obtain ⟨hinv5, h32e, h95e, hlen⟩ := truncGo_props m _ hinv4 h32d h95d
    by_cases h5 : truncGo m (stripP isDotUH (stripP pyIsSpace
        (collapseAll 95 (collapseAll 32 (replaceInvalid t))))).length
      (stripP isDotUH (stripP pyIsSpace
        (collapseAll 95 (collapseAll 32 (replaceInvalid t))))) = []
    · rw [if_pos h5]
      exact ⟨by decide, by decide, by decide, by decide, Or.inr rfl⟩
    · rw [if_neg h5]
      exact ⟨h5, hinv5, h32e, h95e, Or.inl hlen⟩

theorem cleanChar_split (c : Nat) (h : cleanChar c = true) :
    pyIsSpace c = false ∧ isDotUH c = false := by
  unfold cleanChar at h
  obtain ⟨h1, h2⟩ := Bool.and_eq_true_iff.mp h
  constructor
  · rw [← Bool.not_not (pyIsSpace c), h1]; rfl
  · rw [← Bool.not_not (isDotUH c), h2]; rfl

/-- A string already in sanitized shape (clean ends, no forbidden
characters, no doubled space/underscore, within budget) passes through
`sanitize_filename` unchanged. -/
theorem sanitize_id (m : Nat) (y : List Nat) (hne : y ≠ [])
    (hinv : ∀ c ∈ y, invalidChar c = false)
    (h32 : hasDbl 32 y = false) (h95 : hasDbl 95 y = false)
    (hh : ∀ c, y.head? = some c → cleanChar c = true)
    (hl : ∀ c, y.getLast? = some c → cleanChar c = true)
    (hlen : utf8Len y ≤ m) :
    sanitize_filename m y = y := by
  rw [sanitize_eq m y hne]
  have e1 : replaceInvalid y = y := replaceInvalid_id y hinv
  rw [e1]
  have e2 : collapseAll 32 y = y := collapseGo_id 32 y.length y h32
  rw [e2]
  have e3 : collapseAll 95 y = y := collapseGo_id 95 y.length y h95
  rw [e3]
  have e4 : stripP pyIsSpace y = y :=
    stripP_id pyIsSpace y (fun c hc => (cleanChar_split c (hh c hc)).1)
      (fun c hc => (cleanChar_split c (hl c hc)).1)
  rw [e4]
  have e5 : stripP isDotUH y = y :=
    stripP_id isDotUH y (fun c hc => (cleanChar_split c (hh c hc)).2)
      (fun c hc => (cleanChar_split c (hl c hc)).2)
  rw [e5]
  have e6 : truncGo m y.length y = y := truncGo_id m y.length y hlen
  rw [e6, if_neg hne]

/-- C7 (amended): `sanitize` (at the default budget of 60) is idempotent
on every input whose sanitized form neither starts nor ends with a
character that a strip step removes (whitespace or one of `. _ -`); in
general idempotence fails: the `.strip("._-")` step, and byte truncation,
can expose such a character at an end (see the counterexample). -/
theorem c7_sanitize_idempotent_amended (x : List Nat)
    (h : cleanEnds (sanitize_filename 60 x) = true) :
    sanitize_filename 60 (sanitize_filename 60 x) = sanitize_filename 60 x := by
  obtain ⟨hne, hinv, h32, h95, hlen⟩ := sanitize_props 60 x
  have hlen60 : utf8Len (sanitize_filename 60 x) ≤ 60 := by
    rcases hlen with h' | h'
    · exact h'
    · rw [h']; decide
  unfold cleanEnds at h
  obtain ⟨hh, hl⟩ := Bool.and_eq_true_iff.mp h
  exact sanitize_id 60 (sanitize_filename 60 x) hne hinv h32 h95
    (fun c hc => by rw [hc] at hh; simpa [Option.all] using hh)
    (fun c hc => by rw [hc] at hl; simpa [Option.all] using hl)
    hlen60

theorem c7_sanitize_idempotent_amended_witness :
    cleanEnds (sanitize_filename 60 [97, 98, 99]) = true ∧
    sanitize_filename 60 (sanitize_filename 60 [97, 98, 99]) =
      sanitize_filename 60 [97, 98, 99] :=
  ⟨by decide, c7_sanitize_idempotent_amended [97, 98, 99] (by decide)⟩

/-- C8: for every input (and any byte budget), the output of `sanitize`
contains no character of the forbidden set `\ / : * ? " < > |` nor any C0
control character `0x00`–`0x1F`. -/
theorem c8_no_forbidden_output (m : Nat) (t : List Nat) :
    (sanitize_filename m t).all (fun c => !invalidChar c) = true := by
  rw [List.all_eq_true]
  intro c hc
  rw [(sanitize_props m t).2.1 c hc]
  rfl
